import Mathlib

/-!
# Verification of the structured-response / diff-application engine

Shallow embedding of `src/main.py` (an interactive coding assistant that
turns backend JSON responses into file creations and snippet-based edits).

Python strings are modelled as Lean `String` (with the character-list
operations made explicit), the filesystem as a partial map from path
strings to file contents, and the conversation history as a list of
role-tagged messages.  Library path resolution (`pathlib.Path.resolve`)
is modelled in a dedicated `Resolver` section; elsewhere components take
the canonicalization function as a parameter (`Env.canon`), with `none`
standing for the exceptions `Path.resolve` can raise.
-/

namespace QE

/-- The single-quote character, used by the file-content framing strings. -/
def sq : String := String.mk [Char.ofNat 39]

/-- Model of the Python substring test `pat in s` on character lists.
The empty pattern is contained in every string. -/
def containsSub (pat : List Char) : List Char → Bool
  | [] => pat.isEmpty
  | c :: t => pat.isPrefixOf (c :: t) || containsSub pat t

/-- Model of Python `s.replace(pat, repl, 1)` on character lists: replace
the leftmost occurrence of `pat` (for the empty pattern, Python inserts
`repl` in front of `s`). -/
def replaceFirst (pat repl : List Char) : List Char → List Char
  | [] => if pat.isEmpty then repl else []
  | c :: t =>
    if pat.isPrefixOf (c :: t) then repl ++ (c :: t).drop pat.length
    else c :: replaceFirst pat repl t

/-- `pat in s` at `String` level. -/
def strContains (pat s : String) : Bool := containsSub pat.data s.data

/-- `s.replace(pat, repl, 1)` at `String` level. -/
def strReplaceFirst (s pat repl : String) : String :=
  String.mk (replaceFirst pat.data repl.data s.data)

/-- A path string is absolute when it starts with a slash (POSIX). -/
def isAbsPath (p : String) : Bool :=
  match p.data with
  | c :: _ => c = '/'
  | [] => false

/-- String-level model of `pathlib`'s `project_dir / path`: joining with an
absolute right operand discards the left operand. -/
def pathJoin (a b : String) : String :=
  if isAbsPath b then b else a ++ "/" ++ b

/-- Message roles of the conversation history. -/
inductive Role where
  | system
  | user
  | assistant
deriving DecidableEq

/-- One entry of `conversation_history`. -/
structure Message where
  role : Role
  content : String
deriving DecidableEq

abbrev History := List Message

/-- The filesystem: path string to file content, `none` = no such file. -/
abbrev FS := String → Option String

/-- Environment parameter: `canon` models `normalize_path` (a wrapper
around `Path.resolve`); `none` models the `OSError`/`ValueError`
exceptions resolution can raise. -/
structure Env where
  canon : String → Option String

/-- Mutable program state touched by the helpers: the filesystem and the
global `conversation_history`. -/
structure AppState where
  fs : FS
  history : History

/-- Point update of the filesystem. -/
def fsUpdate (fs : FS) (p v : String) : FS :=
  fun q => if q = p then some v else fs q

/-- The `"Content of file '<path>'"` framing used as dedup key. -/
def fileMarker (p : String) : String :=
  "Content of file " ++ sq ++ p ++ sq

/-- Full content of a file-content system message. -/
def fileMarkerMsg (p content : String) : Message :=
  ⟨Role.system, fileMarker p ++ ":\n\n" ++ content⟩

/-- The note `create_file` records after writing. -/
def createdNote (fp : String) : String :=
  "✓ Created/updated file at " ++ sq ++ fp ++ sq

/-- The note `apply_diff_edit` records after a successful patch. -/
def appliedNote (fp : String) : String :=
  "✓ Applied diff edit to " ++ sq ++ fp ++ sq

/-- `create_file(path, content, project_dir)`: joins the project directory
with `path`, overwrites the file, records an assistant note and then a
fresh file-content system message for the normalized path.  When
normalization raises (`canon` returns `none`) the exception escapes after
the write and the first note, before the content message. -/
def create_file (env : Env) (projectDir path content : String) (st : AppState) : AppState :=
  let fp := pathJoin projectDir path
  let fs1 := fsUpdate st.fs fp content
  let h1 := st.history ++ [⟨Role.assistant, createdNote fp⟩]
  match env.canon fp with
  | some np => ⟨fs1, h1 ++ [fileMarkerMsg np content]⟩
  | none => ⟨fs1, h1⟩

/-- Outcome reported by `apply_diff_edit`. -/
inductive DiffOutcome where
  | applied
  | snippetMismatch (expected actual : String)
  | fileNotFound
  | canonError
deriving DecidableEq

/-- `apply_diff_edit(path, original_snippet, new_snippet, project_dir)`:
read the joined path (`fileNotFound` when absent); when the snippet occurs
replace its first occurrence via `create_file` and record the applied
note; otherwise report the mismatch, surfacing the expected snippet and
the actual content, with no state change.  `canonError` models the
exception escaping from `create_file`'s path normalization. -/
def apply_diff_edit (env : Env) (projectDir path orig new : String) (st : AppState) :
    AppState × DiffOutcome :=
  let fp := pathJoin projectDir path
  match st.fs fp with
  | none => (st, DiffOutcome.fileNotFound)
  | some content =>
    if strContains orig content then
      match env.canon fp with
      | none =>
        (⟨fsUpdate st.fs fp (strReplaceFirst content orig new),
          st.history ++ [⟨Role.assistant, createdNote fp⟩]⟩, DiffOutcome.canonError)
      | some _ =>
        let st1 := create_file env projectDir path (strReplaceFirst content orig new) st
        (⟨st1.fs, st1.history ++ [⟨Role.assistant, appliedNote fp⟩]⟩, DiffOutcome.applied)
    else (st, DiffOutcome.snippetMismatch orig content)

/-- `ensure_file_in_context(file_path)`: normalize, read, and append the
file-content message unless some message already contains the framing
text; returns whether the file is available. -/
def ensure_file_in_context (env : Env) (fs : FS) (history : History) (p : String) :
    Bool × History :=
  match env.canon p with
  | none => (false, history)
  | some np =>
    match fs np with
    | none => (false, history)
    | some content =>
      if history.any (fun m => strContains (fileMarker np) m.content) then (true, history)
      else (true, history ++ [fileMarkerMsg np content])

/-- The pre-call preload loop of `stream_openai_response` (lines 340-356):
for each candidate path (already normalized by `guess_files_in_message`)
that is readable, record it in `valid_files` and append its content
message unless the framing is already present. -/
def preloadFiles (fs : FS) : List String → History → List String × History
  | [], h => ([], h)
  | p :: ps, h =>
    match fs p with
    | none => preloadFiles fs ps h
    | some content =>
      let h1 :=
        if h.any (fun m => strContains (fileMarker p) m.content) then h
        else h ++ [fileMarkerMsg p content]
      let r := preloadFiles fs ps h1
      (p :: r.1, r.2)

/-- Schema item of `files_to_create`. -/
structure FileToCreate where
  path : String
  content : String
deriving DecidableEq

/-- Schema item of `files_to_edit`. -/
structure FileToEdit where
  path : String
  original_snippet : String
  new_snippet : String
deriving DecidableEq

/-- The typed response object (`AssistantResponse` pydantic model); the
optional lists default to `none` like the Python `None` defaults. -/
structure AssistantResponse where
  assistant_reply : String
  files_to_create : Option (List FileToCreate)
  files_to_edit : Option (List FileToEdit)
deriving DecidableEq

/-- Result of `json.loads` on the accumulated stream, already shaped: the
fields that may be absent in the raw dictionary are `Option`s. -/
structure ParsedResponse where
  assistant_reply : Option String
  files_to_create : Option (List FileToCreate)
  files_to_edit : Option (List FileToEdit)
deriving DecidableEq

/-- What the backend round trip produced: the transport/request raised
(`apiError`, the outer exception handler), the accumulated text was not
JSON-decodable (`decodeFailure`), or it decoded (`decoded`). -/
inductive BackendOutcome where
  | apiError (msg : String)
  | decodeFailure
  | decoded (pr : ParsedResponse)

/-- The lists a caller acts on: an absent optional list means no files. -/
def optList {α : Type} : Option (List α) → List α
  | some l => l
  | none => []

/-- Warning printed when an edit path cannot be normalized (line 423). -/
def skipWarning (p : String) : String :=
  "Skipping invalid path: " ++ sq ++ p ++ sq

/-- The edit-filtering loop of `stream_openai_response` (lines 412-425):
normalize each edit path (failure drops the edit with a warning and moves
on); keep the edit, with its path rewritten to the canonical form, when
the path is among the files read this turn or `ensure_file_in_context`
succeeds now; drop it otherwise.  Returns the kept edits, the possibly
extended history, and the emitted skip warnings. -/
def filterEdits (env : Env) (fs : FS) (validFiles : List String) :
    List FileToEdit → History → List FileToEdit × History × List String
  | [], h => ([], h, [])
  | e :: rest, h =>
    match env.canon e.path with
    | none =>
      let r := filterEdits env fs validFiles rest h
      (r.1, r.2.1, skipWarning e.path :: r.2.2)
    | some q =>
      if q ∈ validFiles then
        let r := filterEdits env fs validFiles rest h
        (⟨q, e.original_snippet, e.new_snippet⟩ :: r.1, r.2.1, r.2.2)
      else
        let en := ensure_file_in_context env fs h q
        if en.1 then
          let r := filterEdits env fs validFiles rest en.2
          (⟨q, e.original_snippet, e.new_snippet⟩ :: r.1, r.2.1, r.2.2)
        else
          let r := filterEdits env fs validFiles rest en.2
          (r.1, r.2.1, r.2.2)

/-- The synthetic reply substituted when the accumulated output is not
JSON-decodable (line 440). -/
def jsonErrorMsg : String := "Failed to parse JSON response from assistant"

/-- The synthetic reply substituted by the outer exception handler
(line 449). -/
def apiErrorMsg (e : String) : String := "Ollama API error: " ++ e

/-- `stream_openai_response(user_message)`, with the backend round trip
abstracted into `outcome` and the path-guessing heuristic's output passed
as `potentialPaths`: preload readable referenced files, append the user
message, then either substitute a synthetic response (error outcomes,
nothing further recorded) or repair/filter the decoded response and
record its textual reply.  Returns the response and the new history. -/
def stream_openai_response (env : Env) (fs : FS) (history : History)
    (userMsg : String) (potentialPaths : List String) (outcome : BackendOutcome) :
    AssistantResponse × History :=
  let pre := preloadFiles fs potentialPaths history
  let h2 := pre.2 ++ [⟨Role.user, userMsg⟩]
  match outcome with
  | BackendOutcome.apiError e => (⟨apiErrorMsg e, some [], none⟩, h2)
  | BackendOutcome.decodeFailure => (⟨jsonErrorMsg, some [], none⟩, h2)
  | BackendOutcome.decoded pr =>
    let reply := pr.assistant_reply.getD ""
    let filtered :=
      match pr.files_to_edit with
      | some (e :: rest) =>
        let r := filterEdits env fs pre.1 (e :: rest) h2
        (some r.1, r.2.1)
      | other => (other, h2)
    (⟨reply, pr.files_to_create, filtered.1⟩, filtered.2 ++ [⟨Role.assistant, reply⟩])

/-- Decimal digit character. -/
def digitChar (d : Nat) : Char := Char.ofNat (48 + d)

/-- Little-endian decimal digits of a positive number (empty for zero);
the first argument is structural fuel, sufficient whenever it bounds the
number. -/
def natDigitsGo : Nat → Nat → List Char
  | _, 0 => []
  | 0, _ + 1 => []
  | fuel + 1, n + 1 => digitChar ((n + 1) % 10) :: natDigitsGo fuel ((n + 1) / 10)

/-- Little-endian decimal digits of a positive number (empty for zero). -/
def natDigitsAux (n : Nat) : List Char := natDigitsGo n n

/-- Model of Python number-to-string formatting (`f"{counter}"`). -/
def natRepr (n : Nat) : String :=
  if n = 0 then "0" else String.mk (natDigitsAux n).reverse

/-- The candidate directory name `f"{base_name}-{counter}"`. -/
def mkCandidate (base : String) (k : Nat) : String :=
  base ++ "-" ++ natRepr k

/-- The `while` loop of `get_unique_project_dir`, with fuel standing for
its termination on a finite directory listing. -/
def findCounter (dirs : List String) (base : String) : Nat → Nat → Nat
  | 0, k => k
  | fuel + 1, k =>
    if mkCandidate base k ∈ dirs then findCounter dirs base fuel (k + 1) else k

/-- `get_unique_project_dir(base_name, projects_dir)`, with the projects
root modelled by the list of directory names existing under it. -/
def get_unique_project_dir (dirs : List String) (base : String) : String :=
  if base ∈ dirs then mkCandidate base (findCounter dirs base (dirs.length + 1) 1)
  else base

namespace Resolver

/-! Model of `normalize_path` (line 294-296): `str(Path(path_str).resolve())`.
`Path.resolve` is library code; it is modelled here as POSIX `realpath`
with non-strict semantics: components are processed left to right against
a fixed filesystem state, `.` is skipped, `..` pops the already-resolved
prefix, a component naming a symlink is replaced by the resolution of its
target, and missing components are kept as-is.  A fuel bound models the
kernel's symlink-loop limit (`ELOOP`, surfacing as `OSError`, i.e.
`none`).  The POSIX double-slash root special case is not distinguished. -/

/-- A path component (no separator inside). -/
abbrev Comp := List Char

/-- Fixed filesystem state: the current working directory (as resolved
components) and the symlink table mapping an absolute component path to
its target (absolute flag and raw components). -/
structure FsEnv where
  cwd : List Comp
  symlink : List Comp → Option (Bool × List Comp)

def dotC : Comp := ['.']

def dotdotC : Comp := ['.', '.']

/-- One pass of `realpath`: resolve `comps` against the already-canonical
prefix `st`, delegating symlink-target resolution to `rec`. -/
def resolveGo (e : FsEnv) (rec : List Comp → List Comp → Option (List Comp)) :
    List Comp → List Comp → Option (List Comp)
  | st, [] => some st
  | st, c :: rest =>
    if c = dotC then resolveGo e rec st rest
    else if c = dotdotC then resolveGo e rec st.dropLast rest
    else
      match e.symlink (st ++ [c]) with
      | none => resolveGo e rec (st ++ [c]) rest
      | some t =>
        match rec (if t.1 then [] else st) t.2 with
        | none => none
        | some st2 => resolveGo e rec st2 rest

/-- Core of `realpath`: the fuel bounds the symlink nesting depth,
modelling the kernel's symlink limit (exceeding it raises, i.e.
`none`). -/
def resolveComps (e : FsEnv) : Nat → List Comp → List Comp → Option (List Comp)
  | 0 => resolveGo e (fun _ _ => none)
  | fuel + 1 => resolveGo e (resolveComps e fuel)

/-- Splitting a character list at slashes (model of `Path` parsing). -/
def splitSlashAux : List Char → List Char → List (List Char)
  | [], acc => [acc.reverse]
  | c :: t, acc => if c = '/' then acc.reverse :: splitSlashAux t [] else splitSlashAux t (c :: acc)

/-- The components of a path string (empty pieces dropped, like `Path`). -/
def pathComps (s : String) : List Comp :=
  (splitSlashAux s.data []).filter (fun c => !c.isEmpty)

/-- Rendering of a nonempty absolute component list. -/
def renderAbsAux : List Comp → List Char
  | [] => []
  | c :: rest => '/' :: (c ++ renderAbsAux rest)

/-- `str` of an absolute path: `/` for the root, no trailing slash. -/
def renderAbs (cs : List Comp) : List Char :=
  if cs = [] then ['/'] else renderAbsAux cs

/-- Resolution of a path string: start from the root when absolute, from
the working directory otherwise. -/
def resolveStr (e : FsEnv) (fuel : Nat) (s : String) : Option (List Comp) :=
  resolveComps e fuel (if isAbsPath s then [] else e.cwd) (pathComps s)

/-- `normalize_path(path_str)`: resolve and print, `none` for the raised
exception. -/
def normalize_path (e : FsEnv) (fuel : Nat) (s : String) : Option String :=
  (resolveStr e fuel s).map (fun cs => String.mk (renderAbs cs))

/-- A component as produced by parsing: nonempty and separator-free. -/
def Token (c : Comp) : Prop := c ≠ [] ∧ '/' ∉ c

/-- A component of a canonical path: a token that is not `.` or `..`. -/
def Plain (c : Comp) : Prop := Token c ∧ c ≠ dotC ∧ c ≠ dotdotC

/-- A canonical prefix: plain components, none of whose prefixes (the
root included) is a symlink. -/
def Canon (e : FsEnv) (st : List Comp) : Prop :=
  (∀ c ∈ st, Plain c) ∧ ∀ pre, pre <+: st → e.symlink pre = none

/-- Well-formedness of the modelled filesystem state: the root is not a
symlink, the working directory is canonical, and symlink targets are made
of tokens. -/
structure Wf (e : FsEnv) : Prop where
  root : e.symlink [] = none
  cwdCanon : Canon e e.cwd
  targetTok : ∀ p t, e.symlink p = some t → ∀ c ∈ t.2, Token c

end Resolver

/-! ## Lemmas about the substring machinery -/

theorem containsSub_nil_pat (s : List Char) : containsSub [] s = true := by
  cases s <;> simp [containsSub, List.isPrefixOf]

theorem replaceFirst_nil_pat (repl s : List Char) :
    replaceFirst [] repl s = repl ++ s := by
  cases s <;> simp [replaceFirst, List.isPrefixOf]

theorem containsSub_of_isPrefixOf {pat s : List Char}
    (h : pat.isPrefixOf s = true) : containsSub pat s = true := by
  cases s with
  | nil =>
    have : pat = [] := List.prefix_nil.mp (List.isPrefixOf_iff_prefix.mp h)
    simp [containsSub, this]
  | cons c t => simp [containsSub, h]

theorem eq_append_drop_of_isPrefixOf {pat s : List Char}
    (h : pat.isPrefixOf s = true) : s = pat ++ s.drop pat.length := by
  have hp : pat <+: s := List.isPrefixOf_iff_prefix.mp h
  have ht : pat = s.take pat.length := List.prefix_iff_eq_take.mp hp
  conv_lhs => rw [← List.take_append_drop pat.length s]
  rw [← ht]

/-- `replaceFirst` replaces exactly the leftmost occurrence: the input
splits as `pre ++ pat ++ post`, the output is `pre ++ repl ++ post`, and
no occurrence of `pat` starts inside `pre`. -/
theorem replaceFirst_spec (pat repl : List Char) :
    ∀ s : List Char, containsSub pat s = true →
      ∃ pre post, s = pre ++ pat ++ post ∧
        replaceFirst pat repl s = pre ++ repl ++ post ∧
        ∀ i < pre.length, pat.isPrefixOf (s.drop i) = false := by
  intro s
  induction s with
  | nil =>
    intro h
    have hpat : pat = [] := by
      simpa [containsSub, List.isEmpty_iff] using h
    refine ⟨[], [], by simp [hpat], by simp [hpat, replaceFirst], by simp⟩
  | cons c t ih =>
    intro h
    cases hp : pat.isPrefixOf (c :: t) with
    | true =>
      refine ⟨[], (c :: t).drop pat.length, ?_, ?_, by simp⟩
      · simpa using eq_append_drop_of_isPrefixOf hp
      · simp [replaceFirst, hp]
    | false =>
      have hct : containsSub pat t = true := by
        simpa [containsSub, hp] using h
      obtain ⟨pre, post, hsplit, hrepl, hleft⟩ := ih hct
      refine ⟨c :: pre, post, by simp [hsplit], ?_, ?_⟩
      · simp [replaceFirst, hp, hrepl]
      · intro i hi
        cases i with
        | zero => simpa using hp
        | succ j =>
          have hj : j < pre.length := by simpa using hi
          simpa using hleft j hj

/-- String-level leftmost-replacement specification. -/
theorem strReplaceFirst_spec (s pat repl : String) (h : strContains pat s = true) :
    ∃ pre post : List Char, s.data = pre ++ pat.data ++ post ∧
      (strReplaceFirst s pat repl).data = pre ++ repl.data ++ post ∧
      ∀ i < pre.length, pat.data.isPrefixOf (s.data.drop i) = false := by
  simpa [strReplaceFirst] using replaceFirst_spec pat.data repl.data s.data h

/-! ## Lemmas about `apply_diff_edit` and `create_file` -/

theorem create_file_fs (env : Env) (projectDir path content : String) (st : AppState) :
    (create_file env projectDir path content st).fs =
      fsUpdate st.fs (pathJoin projectDir path) content := by
  simp only [create_file]
  split <;> rfl

theorem fsUpdate_self (fs : FS) (p v : String) : fsUpdate fs p v p = some v := by
  simp [fsUpdate]

theorem fsUpdate_other (fs : FS) (p v q : String) (h : q ≠ p) :
    fsUpdate fs p v q = fs q := by
  simp [fsUpdate, h]

/-- Successful-application behaviour of `apply_diff_edit`. -/
theorem apply_diff_edit_found (env : Env) (projectDir path orig new : String)
    (st : AppState) (content np : String)
    (hread : st.fs (pathJoin projectDir path) = some content)
    (hfound : strContains orig content = true)
    (hcanon : env.canon (pathJoin projectDir path) = some np) :
    apply_diff_edit env projectDir path orig new st =
      (⟨fsUpdate st.fs (pathJoin projectDir path) (strReplaceFirst content orig new),
        st.history ++ [⟨Role.assistant, createdNote (pathJoin projectDir path)⟩,
          fileMarkerMsg np (strReplaceFirst content orig new),
          ⟨Role.assistant, appliedNote (pathJoin projectDir path)⟩]⟩,
       DiffOutcome.applied) := by
  simp only [apply_diff_edit, create_file, hread, hfound, hcanon, if_true]
  simp [List.append_assoc]

/-- File-not-found behaviour of `apply_diff_edit`. -/
theorem apply_diff_edit_missing (env : Env) (projectDir path orig new : String)
    (st : AppState) (hread : st.fs (pathJoin projectDir path) = none) :
    apply_diff_edit env projectDir path orig new st = (st, DiffOutcome.fileNotFound) := by
  simp only [apply_diff_edit, hread]

/-- Snippet-mismatch behaviour of `apply_diff_edit`. -/
theorem apply_diff_edit_mismatch (env : Env) (projectDir path orig new : String)
    (st : AppState) (content : String)
    (hread : st.fs (pathJoin projectDir path) = some content)
    (hmiss : strContains orig content = false) :
    apply_diff_edit env projectDir path orig new st =
      (st, DiffOutcome.snippetMismatch orig content) := by
  simp only [apply_diff_edit, hread, hmiss, Bool.false_eq_true, if_false]

theorem strMkAppend (a b : String) : String.mk (a.data ++ b.data) = a ++ b := by
  cases a
  cases b
  rfl

/-! ## Claim theorems -/

/-- Claim C1 — when the file at the joined path contains
`original_snippet`, `apply_diff_edit` reports the edit applied,
overwrites exactly that file with the content whose first (leftmost)
occurrence of the snippet, found by plain substring search, is replaced
by `new_snippet`, and no occurrence other than the first is replaced
(the decomposition below pins the leftmost occurrence and keeps the
remainder untouched). -/
theorem claim_C1_first_occurrence_replaced
    (env : Env) (projectDir path orig new : String) (st : AppState)
    (content np : String)
    (hread : st.fs (pathJoin projectDir path) = some content)
    (hfound : strContains orig content = true)
    (hcanon : env.canon (pathJoin projectDir path) = some np) :
    (apply_diff_edit env projectDir path orig new st).2 = DiffOutcome.applied ∧
    (apply_diff_edit env projectDir path orig new st).1.fs (pathJoin projectDir path) =
      some (strReplaceFirst content orig new) ∧
    (∀ q, q ≠ pathJoin projectDir path →
      (apply_diff_edit env projectDir path orig new st).1.fs q = st.fs q) ∧
    ∃ pre post : List Char,
      content.data = pre ++ orig.data ++ post ∧
      (strReplaceFirst content orig new).data = pre ++ new.data ++ post ∧
      ∀ i < pre.length, orig.data.isPrefixOf (content.data.drop i) = false := by
  rw [apply_diff_edit_found env projectDir path orig new st content np hread hfound hcanon]
  refine ⟨rfl, fsUpdate_self _ _ _, fun q hq => fsUpdate_other _ _ _ _ hq, ?_⟩
  exact strReplaceFirst_spec content orig new hfound

/-- Witness for C1: patching `"xyx"` with `"x" ↦ "Z"` rewrites the file
to `"Zyx"` (the first occurrence only). -/
theorem claim_C1_first_occurrence_replaced_witness :
    ((⟨fun q => if q = "proj/a.txt" then some "xyx" else none, []⟩ : AppState).fs
        (pathJoin "proj" "a.txt") = some "xyx" ∧
      strContains "x" "xyx" = true ∧
      (Env.mk fun p => some p).canon (pathJoin "proj" "a.txt") = some "proj/a.txt") ∧
    ((apply_diff_edit (Env.mk fun p => some p) "proj" "a.txt" "x" "Z"
        ⟨fun q => if q = "proj/a.txt" then some "xyx" else none, []⟩).2 =
        DiffOutcome.applied ∧
      (apply_diff_edit (Env.mk fun p => some p) "proj" "a.txt" "x" "Z"
        ⟨fun q => if q = "proj/a.txt" then some "xyx" else none, []⟩).1.fs
          (pathJoin "proj" "a.txt") = some (strReplaceFirst "xyx" "x" "Z") ∧
      (∀ q, q ≠ pathJoin "proj" "a.txt" →
        (apply_diff_edit (Env.mk fun p => some p) "proj" "a.txt" "x" "Z"
          ⟨fun q => if q = "proj/a.txt" then some "xyx" else none, []⟩).1.fs q =
          (⟨fun q => if q = "proj/a.txt" then some "xyx" else none, []⟩ : AppState).fs q) ∧
      ∃ pre post : List Char,
        ("xyx" : String).data = pre ++ ("x" : String).data ++ post ∧
        (strReplaceFirst "xyx" "x" "Z").data = pre ++ ("Z" : String).data ++ post ∧
        ∀ i < pre.length,
          ("x" : String).data.isPrefixOf (("xyx" : String).data.drop i) = false) :=
  ⟨⟨by decide, by decide, by decide⟩,
    claim_C1_first_occurrence_replaced (Env.mk fun p => some p) "proj" "a.txt" "x" "Z"
      ⟨fun q => if q = "proj/a.txt" then some "xyx" else none, []⟩ "xyx" "proj/a.txt"
      (by decide) (by decide) (by decide)⟩

/-- Claim C2 — when the file at the joined path lacks the snippet, or does
not exist, `apply_diff_edit` leaves the filesystem and the recorded state
unchanged; the mismatch case surfaces both the expected snippet and the
actual content, and the file-not-found outcome is distinct from the
snippet-mismatch outcome. -/
theorem claim_C2_mismatch_leaves_file_unchanged
    (env : Env) (projectDir path orig new : String) (st : AppState) :
    (st.fs (pathJoin projectDir path) = none →
      apply_diff_edit env projectDir path orig new st = (st, DiffOutcome.fileNotFound)) ∧
    (∀ content, st.fs (pathJoin projectDir path) = some content →
      strContains orig content = false →
      apply_diff_edit env projectDir path orig new st =
        (st, DiffOutcome.snippetMismatch orig content)) ∧
    (∀ e a, (DiffOutcome.fileNotFound : DiffOutcome) ≠ DiffOutcome.snippetMismatch e a) := by
  refine ⟨fun h => apply_diff_edit_missing env projectDir path orig new st h,
    fun content hr hm => apply_diff_edit_mismatch env projectDir path orig new st content hr hm,
    fun e a h => by cases h⟩

/-- Witness for C2: a missing file reports `fileNotFound`; a file reading
`"hello"` without the snippet `"x"` is returned untouched with the
mismatch surfacing `"x"` and `"hello"`. -/
theorem claim_C2_mismatch_leaves_file_unchanged_witness :
    (apply_diff_edit (Env.mk fun p => some p) "proj" "a.txt" "x" "Z"
        ⟨fun _ => none, []⟩ = (⟨fun _ => none, []⟩, DiffOutcome.fileNotFound)) ∧
    (apply_diff_edit (Env.mk fun p => some p) "proj" "a.txt" "x" "Z"
        ⟨fun q => if q = "proj/a.txt" then some "hello" else none, []⟩ =
      (⟨fun q => if q = "proj/a.txt" then some "hello" else none, []⟩,
        DiffOutcome.snippetMismatch "x" "hello")) ∧
    (DiffOutcome.fileNotFound : DiffOutcome) ≠ DiffOutcome.snippetMismatch "x" "hello" :=
  ⟨(claim_C2_mismatch_leaves_file_unchanged (Env.mk fun p => some p) "proj" "a.txt" "x" "Z"
      ⟨fun _ => none, []⟩).1 rfl,
    (claim_C2_mismatch_leaves_file_unchanged (Env.mk fun p => some p) "proj" "a.txt" "x" "Z"
      ⟨fun q => if q = "proj/a.txt" then some "hello" else none, []⟩).2.1 "hello"
      (by decide) (by decide),
    (claim_C2_mismatch_leaves_file_unchanged (Env.mk fun p => some p) "proj" "a.txt" "x" "Z"
      ⟨fun _ => none, []⟩).2.2 "x" "hello"⟩

/-- Claim C9 — an empty `original_snippet` always takes the applied
branch (the empty string is a substring of every content), is never
reported as a mismatch, and rewrites the file to `new_snippet`
concatenated with the old content. -/
theorem claim_C9_empty_snippet_prepends
    (env : Env) (projectDir path new : String) (st : AppState)
    (content np : String)
    (hread : st.fs (pathJoin projectDir path) = some content)
    (hcanon : env.canon (pathJoin projectDir path) = some np) :
    (∀ e a, (apply_diff_edit env projectDir path "" new st).2 ≠
      DiffOutcome.snippetMismatch e a) ∧
    (apply_diff_edit env projectDir path "" new st).2 = DiffOutcome.applied ∧
    (apply_diff_edit env projectDir path "" new st).1.fs (pathJoin projectDir path) =
      some (new ++ content) := by
  have hfound : strContains "" content = true := containsSub_nil_pat content.data
  have hrepl : strReplaceFirst content "" new = new ++ content := by
    have := replaceFirst_nil_pat new.data content.data
    simpa [strReplaceFirst, this] using strMkAppend new content
  rw [apply_diff_edit_found env projectDir path "" new st content np hread hfound hcanon]
  refine ⟨?_, rfl, ?_⟩
  · intro e a h
    cases h
  · rw [← hrepl]
    exact fsUpdate_self _ _ _

/-- Witness for C9: patching `"abc"` with the empty snippet and
replacement `"Z"` yields `"Zabc"`. -/
theorem claim_C9_empty_snippet_prepends_witness :
    ((⟨fun q => if q = "proj/a.txt" then some "abc" else none, []⟩ : AppState).fs
        (pathJoin "proj" "a.txt") = some "abc" ∧
      (Env.mk fun p => some p).canon (pathJoin "proj" "a.txt") = some "proj/a.txt") ∧
    ((∀ e a, (apply_diff_edit (Env.mk fun p => some p) "proj" "a.txt" "" "Z"
        ⟨fun q => if q = "proj/a.txt" then some "abc" else none, []⟩).2 ≠
        DiffOutcome.snippetMismatch e a) ∧
      (apply_diff_edit (Env.mk fun p => some p) "proj" "a.txt" "" "Z"
        ⟨fun q => if q = "proj/a.txt" then some "abc" else none, []⟩).2 =
        DiffOutcome.applied ∧
      (apply_diff_edit (Env.mk fun p => some p) "proj" "a.txt" "" "Z"
        ⟨fun q => if q = "proj/a.txt" then some "abc" else none, []⟩).1.fs
          (pathJoin "proj" "a.txt") = some ("Z" ++ "abc")) :=
  ⟨⟨by decide, by decide⟩,
    claim_C9_empty_snippet_prepends (Env.mk fun p => some p) "proj" "a.txt" "Z"
      ⟨fun q => if q = "proj/a.txt" then some "abc" else none, []⟩ "abc" "proj/a.txt"
      (by decide) (by decide)⟩

/-- A path lies under a directory when it is the directory itself or has
it as a slash-terminated prefix. -/
def underDir (dir q : String) : Prop :=
  q = dir ∨ (dir ++ "/").data <+: q.data

/-- Claim C6 — joining the project directory with an absolute path
discards the project directory, so `create_file` writes to the absolute
path itself and `apply_diff_edit` reads and writes it too; when the
absolute path is not under the project directory, no file under the
project directory is touched — the effect lands outside the directory
meant to host all file side effects. -/
theorem claim_C6_absolute_path_escapes_project_dir
    (env : Env) (projectDir p content orig new : String) (st : AppState)
    (hab : isAbsPath p = true) :
    pathJoin projectDir p = p ∧
    (create_file env projectDir p content st).fs p = some content ∧
    (∀ q, q ≠ p → (create_file env projectDir p content st).fs q = st.fs q) ∧
    (st.fs p = none →
      (apply_diff_edit env projectDir p orig new st).2 = DiffOutcome.fileNotFound) ∧
    (∀ c np, st.fs p = some c → strContains orig c = true → env.canon p = some np →
      (apply_diff_edit env projectDir p orig new st).1.fs p =
        some (strReplaceFirst c orig new)) ∧
    (¬ underDir projectDir p → ∀ q, underDir projectDir q →
      (create_file env projectDir p content st).fs q = st.fs q) := by
  have hjoin : pathJoin projectDir p = p := by simp [pathJoin, hab]
  have hcf : (create_file env projectDir p content st).fs = fsUpdate st.fs p content := by
    rw [create_file_fs, hjoin]
  refine ⟨hjoin, ?_, ?_, ?_, ?_, ?_⟩
  · rw [hcf]
    exact fsUpdate_self _ _ _
  · intro q hq
    rw [hcf]
    exact fsUpdate_other _ _ _ _ hq
  · intro hnone
    have := apply_diff_edit_missing env projectDir p orig new st (by rw [hjoin]; exact hnone)
    rw [this]
  · intro c np hc hfound hcanon
    have := apply_diff_edit_found env projectDir p orig new st c np
      (by rw [hjoin]; exact hc) hfound (by rw [hjoin]; exact hcanon)
    rw [this]
    simp only [hjoin]
    exact fsUpdate_self _ _ _
  · intro hout q hq
    rw [hcf]
    refine fsUpdate_other _ _ _ _ ?_
    intro hqe
    exact hout (hqe ▸ hq)

/-- Witness for C6: with project directory `projects/demo` and the
absolute path `/etc/target`, the write lands on `/etc/target` itself. -/
theorem claim_C6_absolute_path_escapes_project_dir_witness :
    isAbsPath "/etc/target" = true ∧
    (pathJoin "projects/demo" "/etc/target" = "/etc/target" ∧
      (create_file (Env.mk fun p => some p) "projects/demo" "/etc/target" "boom"
        ⟨fun _ => none, []⟩).fs "/etc/target" = some "boom" ∧
      (∀ q, q ≠ "/etc/target" →
        (create_file (Env.mk fun p => some p) "projects/demo" "/etc/target" "boom"
          ⟨fun _ => none, []⟩).fs q = (⟨fun _ => none, []⟩ : AppState).fs q) ∧
      ((⟨fun _ => none, []⟩ : AppState).fs "/etc/target" = none →
        (apply_diff_edit (Env.mk fun p => some p) "projects/demo" "/etc/target" "a" "b"
          ⟨fun _ => none, []⟩).2 = DiffOutcome.fileNotFound) ∧
      (∀ c np, (⟨fun _ => none, []⟩ : AppState).fs "/etc/target" = some c →
        strContains "a" c = true → (Env.mk fun p => some p).canon "/etc/target" = some np →
        (apply_diff_edit (Env.mk fun p => some p) "projects/demo" "/etc/target" "a" "b"
          ⟨fun _ => none, []⟩).1.fs "/etc/target" = some (strReplaceFirst c "a" "b")) ∧
      (¬ underDir "projects/demo" "/etc/target" → ∀ q, underDir "projects/demo" q →
        (create_file (Env.mk fun p => some p) "projects/demo" "/etc/target" "boom"
          ⟨fun _ => none, []⟩).fs q = (⟨fun _ => none, []⟩ : AppState).fs q)) :=
  ⟨by decide,
    claim_C6_absolute_path_escapes_project_dir (Env.mk fun p => some p) "projects/demo"
      "/etc/target" "boom" "a" "b" ⟨fun _ => none, []⟩ (by decide)⟩

/-! ## Lemmas about the streaming turn -/

/-- The preload loop only extends the history, and only with system-role
file-content messages. -/
theorem preloadFiles_history (fs : FS) :
    ∀ (ps : List String) (h : History), ∃ ext,
      (preloadFiles fs ps h).2 = h ++ ext ∧ ∀ m ∈ ext, m.role = Role.system := by
  intro ps
  induction ps with
  | nil => exact fun h => ⟨[], by simp [preloadFiles]⟩
  | cons p rest ih =>
    intro h
    simp only [preloadFiles]
    cases hf : fs p with
    | none => exact ih h
    | some content =>
      simp only
      by_cases hany : h.any (fun m => strContains (fileMarker p) m.content)
      · simpa [hany] using ih h
      · obtain ⟨ext, he, hr⟩ := ih (h ++ [fileMarkerMsg p content])
        refine ⟨fileMarkerMsg p content :: ext, ?_, ?_⟩
        · simp [hany, he]
        · intro m hm
          cases hm with
          | head => rfl
          | tail _ hm => exact hr m hm

/-- Claim C5 — when the accumulated backend output is not decodable,
`stream_openai_response` returns a synthetic `AssistantResponse` whose
reply is the (non-empty) diagnostic text and whose create/edit lists are
both effectively empty; being a total function of the modelled state, it
returns rather than crashes. -/
theorem claim_C5_schema_error_synthetic_response
    (env : Env) (fs : FS) (history : History) (userMsg : String)
    (potentialPaths : List String) :
    (stream_openai_response env fs history userMsg potentialPaths
        BackendOutcome.decodeFailure).1.assistant_reply = jsonErrorMsg ∧
    jsonErrorMsg ≠ "" ∧
    optList (stream_openai_response env fs history userMsg potentialPaths
        BackendOutcome.decodeFailure).1.files_to_create = [] ∧
    optList (stream_openai_response env fs history userMsg potentialPaths
        BackendOutcome.decodeFailure).1.files_to_edit = [] := by
  refine ⟨rfl, by decide, rfl, rfl⟩

/-- Claim C10 — on a failed backend turn (the transport request raised,
or the accumulated output failed to parse) the history gains the preload
messages and the user message, and nothing else: in particular no
assistant message is recorded, while the synthetic diagnostic reply is
only returned to the caller. -/
theorem claim_C10_failed_turn_records_no_assistant_message
    (env : Env) (fs : FS) (history : History) (userMsg : String)
    (potentialPaths : List String) (errText : String) :
    ((stream_openai_response env fs history userMsg potentialPaths
        (BackendOutcome.apiError errText)).1.assistant_reply = apiErrorMsg errText ∧
      ∃ ext, (stream_openai_response env fs history userMsg potentialPaths
          (BackendOutcome.apiError errText)).2 =
          history ++ ext ++ [⟨Role.user, userMsg⟩] ∧
        ∀ m ∈ ext, m.role = Role.system) ∧
    ((stream_openai_response env fs history userMsg potentialPaths
        BackendOutcome.decodeFailure).1.assistant_reply = jsonErrorMsg ∧
      ∃ ext, (stream_openai_response env fs history userMsg potentialPaths
          BackendOutcome.decodeFailure).2 =
          history ++ ext ++ [⟨Role.user, userMsg⟩] ∧
        ∀ m ∈ ext, m.role = Role.system) := by
  obtain ⟨ext, he, hr⟩ := preloadFiles_history fs potentialPaths history
  constructor
  · refine ⟨rfl, ext, ?_, hr⟩
    simp [stream_openai_response, he]
  · refine ⟨rfl, ext, ?_, hr⟩
    simp [stream_openai_response, he]

/-! ## Lemmas about the edit-filtering loop -/

/-- Whether `ensure_file_in_context` succeeds: the path normalizes and
the normalized path is readable (independent of the history). -/
def ensureOk (env : Env) (fs : FS) (q : String) : Bool :=
  match env.canon q with
  | none => false
  | some r => (fs r).isSome

theorem ensure_file_in_context_fst (env : Env) (fs : FS) (h : History) (q : String) :
    (ensure_file_in_context env fs h q).1 = ensureOk env fs q := by
  unfold ensure_file_in_context ensureOk
  cases hc : env.canon q with
  | none => rfl
  | some r =>
    cases hf : fs r with
    | none => simp [hf]
    | some c =>
      simp only [hf, Option.isSome_some]
      split <;> rfl

/-- The admission rule applied to one proposed edit: the path must
canonicalize, and the canonical path must be among the files read this
turn or readable now; the kept edit carries the canonical path. -/
def keepEdit (env : Env) (fs : FS) (validFiles : List String) (e : FileToEdit) :
    Option FileToEdit :=
  match env.canon e.path with
  | none => none
  | some q =>
    if q ∈ validFiles ∨ ensureOk env fs q = true then
      some ⟨q, e.original_snippet, e.new_snippet⟩
    else none

/-- The warning emitted for one proposed edit (only on canonicalization
failure). -/
def warnEdit (env : Env) (e : FileToEdit) : Option String :=
  match env.canon e.path with
  | none => some (skipWarning e.path)
  | some _ => none

theorem filterEdits_eq_filterMap (env : Env) (fs : FS) (validFiles : List String) :
    ∀ (edits : List FileToEdit) (h : History),
      (filterEdits env fs validFiles edits h).1 = edits.filterMap (keepEdit env fs validFiles) ∧
      (filterEdits env fs validFiles edits h).2.2 = edits.filterMap (warnEdit env) := by
  intro edits
  induction edits with
  | nil => exact fun h => ⟨rfl, rfl⟩
  | cons e rest ih =>
    intro h
    simp only [filterEdits, List.filterMap_cons, keepEdit, warnEdit]
    cases hc : env.canon e.path with
    | none => simp [(ih h).1, (ih h).2]
    | some q =>
      by_cases hv : q ∈ validFiles
      · simp [hv, (ih h).1, (ih h).2]
      · have hfst := ensure_file_in_context_fst env fs h q
        cases he : ensureOk env fs q with
        | true =>
          have : (ensure_file_in_context env fs h q).1 = true := by rw [hfst, he]
          simp [hv, this, he, (ih (ensure_file_in_context env fs h q).2).1,
            (ih (ensure_file_in_context env fs h q).2).2]
        | false =>
          have : (ensure_file_in_context env fs h q).1 = false := by rw [hfst, he]
          simp [hv, this, he, (ih (ensure_file_in_context env fs h q).2).1,
            (ih (ensure_file_in_context env fs h q).2).2]

/-- Claim C4 — each proposed edit whose path cannot be canonicalized is
dropped with a warning while the rest of the response is still
processed; an edit whose path canonicalizes is kept exactly when the
canonical path is among the files read this turn or can be read now, and
the kept edit's path is rewritten to the canonical form; every other
edit is dropped before the response (and hence `apply_diff_edit`) sees
it. -/
theorem claim_C4_edit_path_validation
    (env : Env) (fs : FS) (validFiles : List String) :
    (∀ (edits : List FileToEdit) (h : History),
      (filterEdits env fs validFiles edits h).1 =
        edits.filterMap (keepEdit env fs validFiles) ∧
      (filterEdits env fs validFiles edits h).2.2 =
        edits.filterMap (warnEdit env)) ∧
    (∀ (history : History) (userMsg : String) (pp : List String)
        (pr : ParsedResponse) (e : FileToEdit) (rest : List FileToEdit),
      pr.files_to_edit = some (e :: rest) →
      (stream_openai_response env fs history userMsg pp
          (BackendOutcome.decoded pr)).1.files_to_edit =
        some ((e :: rest).filterMap
          (keepEdit env fs (preloadFiles fs pp history).1))) := by
  refine ⟨filterEdits_eq_filterMap env fs validFiles, ?_⟩
  intro history userMsg pp pr e rest hpr
  simp only [stream_openai_response, hpr]
  exact congrArg some ((filterEdits_eq_filterMap env fs _ _ _).1)

/-- Witness for C4: of four proposed edits — uncanonicalizable path,
path read this turn, path readable now, unreadable path — the first is
dropped with a warning and only the middle two are kept, with canonical
paths. -/
theorem claim_C4_edit_path_validation_witness :
    (({ assistant_reply := some "r", files_to_create := none,
        files_to_edit := some [⟨"bad", "o", "n"⟩, ⟨"ok.txt", "o", "n"⟩,
          ⟨"now.txt", "o", "n"⟩, ⟨"gone.txt", "o", "n"⟩] } : ParsedResponse).files_to_edit =
      some (⟨"bad", "o", "n"⟩ :: [⟨"ok.txt", "o", "n"⟩, ⟨"now.txt", "o", "n"⟩,
        ⟨"gone.txt", "o", "n"⟩])) ∧
    (stream_openai_response
        (Env.mk fun p => if p = "bad" then none else some p)
        (fun p => if p = "ok.txt" then some "K" else if p = "now.txt" then some "N" else none)
        [] "msg" ["ok.txt"]
        (BackendOutcome.decoded
          { assistant_reply := some "r", files_to_create := none,
            files_to_edit := some [⟨"bad", "o", "n"⟩, ⟨"ok.txt", "o", "n"⟩,
              ⟨"now.txt", "o", "n"⟩, ⟨"gone.txt", "o", "n"⟩] })).1.files_to_edit =
      some ((⟨"bad", "o", "n"⟩ :: [⟨"ok.txt", "o", "n"⟩, ⟨"now.txt", "o", "n"⟩,
          ⟨"gone.txt", "o", "n"⟩]).filterMap
        (keepEdit (Env.mk fun p => if p = "bad" then none else some p)
          (fun p => if p = "ok.txt" then some "K" else if p = "now.txt" then some "N" else none)
          (preloadFiles
            (fun p => if p = "ok.txt" then some "K" else if p = "now.txt" then some "N" else none)
            ["ok.txt"] []).1)) :=
  ⟨rfl,
    (claim_C4_edit_path_validation
      (Env.mk fun p => if p = "bad" then none else some p)
      (fun p => if p = "ok.txt" then some "K" else if p = "now.txt" then some "N" else none)
      []).2 [] "msg" ["ok.txt"]
      { assistant_reply := some "r", files_to_create := none,
        files_to_edit := some [⟨"bad", "o", "n"⟩, ⟨"ok.txt", "o", "n"⟩,
          ⟨"now.txt", "o", "n"⟩, ⟨"gone.txt", "o", "n"⟩] }
      ⟨"bad", "o", "n"⟩ [⟨"ok.txt", "o", "n"⟩, ⟨"now.txt", "o", "n"⟩, ⟨"gone.txt", "o", "n"⟩]
      rfl⟩

/-! ## Lemmas about `get_unique_project_dir` -/

/-- Little-endian decimal decoding, inverse to `natDigitsAux`. -/
def decodeLE : List Char → Nat
  | [] => 0
  | c :: cs => (c.toNat - 48) + 10 * decodeLE cs

theorem digitChar_toNat {d : Nat} (hd : d < 10) : (digitChar d).toNat = 48 + d := by
  unfold digitChar
  interval_cases d <;> decide

theorem decodeLE_natDigitsGo : ∀ fuel n, n ≤ fuel → decodeLE (natDigitsGo fuel n) = n := by
  intro fuel
  induction fuel with
  | zero =>
    intro n hn
    have : n = 0 := by omega
    subst this
    rfl
  | succ f ih =>
    intro n hn
    cases n with
    | zero => rfl
    | succ m =>
      have hdiv : (m + 1) / 10 < m + 1 := Nat.div_lt_self (Nat.succ_pos m) (by omega)
      have hmod : (m + 1) % 10 < 10 := Nat.mod_lt _ (by omega)
      simp only [natDigitsGo, decodeLE, ih ((m + 1) / 10) (by omega), digitChar_toNat hmod]
      omega

theorem decodeLE_natDigitsAux (n : Nat) : decodeLE (natDigitsAux n) = n :=
  decodeLE_natDigitsGo n n (Nat.le_refl n)

theorem natRepr_injective : Function.Injective natRepr := by
  intro a b hab
  unfold natRepr at hab
  by_cases ha : a = 0 <;> by_cases hb : b = 0
  · omega
  · exfalso
    simp only [ha, if_true, hb, if_false] at hab
    have hd : (String.mk ("0".data) : String).data = (String.mk (natDigitsAux b).reverse).data := by
      rw [← hab]
    have : (natDigitsAux b).reverse = "0".data := by
      simpa using hd.symm
    have hdig : natDigitsAux b = ['0'] := by
      have := congrArg List.reverse this
      simpa using this
    have := decodeLE_natDigitsAux b
    rw [hdig] at this
    simp [decodeLE] at this
    omega
  · exfalso
    simp only [ha, if_false, hb, if_true] at hab
    have hd : (String.mk (natDigitsAux a).reverse).data = ("0" : String).data := by
      rw [hab]
    have hdig : natDigitsAux a = ['0'] := by
      have := congrArg List.reverse hd
      simpa using this
    have := decodeLE_natDigitsAux a
    rw [hdig] at this
    simp [decodeLE] at this
    omega
  · simp only [ha, if_false, hb, if_false] at hab
    have hd : (natDigitsAux a).reverse = (natDigitsAux b).reverse := by
      injection hab
    have := List.reverse_injective hd
    rw [← decodeLE_natDigitsAux a, ← decodeLE_natDigitsAux b, this]

theorem mkCandidate_injective (base : String) : Function.Injective (mkCandidate base) := by
  intro j k h
  apply natRepr_injective
  have hd := congrArg String.data h
  simp only [mkCandidate, String.data_append, List.append_assoc] at hd
  have h1 : ("-" : String).data ++ (natRepr j).data = ("-" : String).data ++ (natRepr k).data :=
    List.append_cancel_left hd
  have h2 : (natRepr j).data = (natRepr k).data := List.append_cancel_left h1
  cases hj : natRepr j with
  | mk dj =>
    cases hk : natRepr k with
    | mk dk =>
      rw [hj, hk] at h2
      exact congrArg String.mk h2

/-- Specification of the probing loop: given enough fuel to reach a free
candidate, it returns the least index at or after the start whose
candidate name is unused. -/
theorem findCounter_spec (dirs : List String) (base : String) :
    ∀ (fuel k : Nat), (∃ j < fuel, mkCandidate base (k + j) ∉ dirs) →
      mkCandidate base (findCounter dirs base fuel k) ∉ dirs ∧
      k ≤ findCounter dirs base fuel k ∧
      ∀ j, k ≤ j → j < findCounter dirs base fuel k → mkCandidate base j ∈ dirs := by
  intro fuel
  induction fuel with
  | zero =>
    intro k h
    obtain ⟨j, hj, _⟩ := h
    omega
  | succ f ih =>
    intro k h
    by_cases hk : mkCandidate base k ∈ dirs
    · have hex : ∃ j < f, mkCandidate base (k + 1 + j) ∉ dirs := by
        obtain ⟨j, hj, hnot⟩ := h
        cases j with
        | zero => exact absurd hk (by simpa using hnot)
        | succ i => exact ⟨i, by omega, by
            have : k + 1 + i = k + (i + 1) := by omega
            rw [this]; exact hnot⟩
      obtain ⟨h1, h2, h3⟩ := ih (k + 1) hex
      have hval : findCounter dirs base (f + 1) k = findCounter dirs base f (k + 1) := by
        simp [findCounter, hk]
      refine ⟨by rw [hval]; exact h1, by omega, ?_⟩
      intro j hj1 hj2
      rcases Nat.eq_or_lt_of_le hj1 with he | hl
      · rw [← he]; exact hk
      · exact h3 j hl (by rw [← hval]; exact hj2)
    · have hval : findCounter dirs base (f + 1) k = k := by
        simp [findCounter, hk]
      exact ⟨by rw [hval]; exact hk, by omega, fun j hj1 hj2 => by omega⟩

/-- Pigeonhole: among the first `dirs.length + 1` candidate names, one is
not in `dirs`. -/
theorem exists_free_candidate (dirs : List String) (base : String) :
    ∃ j < dirs.length + 1, mkCandidate base (1 + j) ∉ dirs := by
  by_contra hall
  push_neg at hall
  set L := (List.range (dirs.length + 1)).map (fun j => mkCandidate base (1 + j)) with hL
  have hnd : L.Nodup := by
    refine (List.nodup_range (dirs.length + 1)).map ?_
    intro x y hxy
    have := mkCandidate_injective base hxy
    omega
  have hsub : ∀ s ∈ L, s ∈ dirs := by
    intro s hs
    rw [hL] at hs
    simp only [List.mem_map, List.mem_range] at hs
    obtain ⟨j, hj, rfl⟩ := hs
    exact hall j hj
  have hcard1 : L.toFinset.card = dirs.length + 1 := by
    rw [List.toFinset_card_of_nodup hnd, hL]
    simp
  have hcard2 : L.toFinset.card ≤ dirs.toFinset.card := by
    apply Finset.card_le_card
    intro s hs
    rw [List.mem_toFinset] at hs
    rw [List.mem_toFinset]
    exact hsub s hs
  have hcard3 : dirs.toFinset.card ≤ dirs.length := dirs.toFinset_card_le
  omega

/-- Claim C7 — `get_unique_project_dir` returns the base name unchanged
when no directory of that name exists; otherwise it returns
`base-k` for the least positive `k` whose candidate does not exist
(every smaller positive index is taken); in particular it returns
`foo` on an empty root and `foo-2` when `foo` and `foo-1` exist.  Being
a pure function of the listing, it is deterministic. -/
theorem claim_C7_unique_project_dir (dirs : List String) (base : String) :
    (base ∉ dirs → get_unique_project_dir dirs base = base) ∧
    (base ∈ dirs → ∃ k, get_unique_project_dir dirs base = mkCandidate base k ∧
      1 ≤ k ∧ mkCandidate base k ∉ dirs ∧
      ∀ j, 1 ≤ j → j < k → mkCandidate base j ∈ dirs) ∧
    get_unique_project_dir [] "foo" = "foo" ∧
    get_unique_project_dir ["foo", "foo-1"] "foo" = "foo-2" := by
  refine ⟨fun h => by simp [get_unique_project_dir, h], ?_, by decide, by decide⟩
  intro hmem
  obtain ⟨j, hj, hfree⟩ := exists_free_candidate dirs base
  obtain ⟨h1, h2, h3⟩ := findCounter_spec dirs base (dirs.length + 1) 1 ⟨j, hj, hfree⟩
  refine ⟨findCounter dirs base (dirs.length + 1) 1, ?_, h2, h1, h3⟩
  simp [get_unique_project_dir, hmem]

/-- Witness for C7: the two concrete roots of the claim. -/
theorem claim_C7_unique_project_dir_witness :
    ("foo" ∉ ([] : List String) ∧ get_unique_project_dir [] "foo" = "foo") ∧
    ("foo" ∈ ["foo", "foo-1"] ∧
      ∃ k, get_unique_project_dir ["foo", "foo-1"] "foo" = mkCandidate "foo" k ∧
        1 ≤ k ∧ mkCandidate "foo" k ∉ ["foo", "foo-1"] ∧
        ∀ j, 1 ≤ j → j < k → mkCandidate "foo" j ∈ ["foo", "foo-1"]) :=
  ⟨⟨by decide, (claim_C7_unique_project_dir [] "foo").1 (by decide)⟩,
    ⟨by decide, (claim_C7_unique_project_dir ["foo", "foo-1"] "foo").2.1 (by decide)⟩⟩

/-! ## The file-content dedup behaviour (claim C3) -/

/-- A message carries the content-of-file framing for `p`: its content
starts with `Content of file '<p>':`. -/
def isFileMsg (p : String) (m : Message) : Bool :=
  (fileMarker p ++ ":").data.isPrefixOf m.content.data

/-- A path free of the quote character used by the framing (so that
framings for different paths cannot shadow each other). -/
def NoQuote (p : String) : Prop := Char.ofNat 39 ∉ p.data

/-- The claimed invariant: at most one message carries the framing for
any quote-free path. -/
def DedupInv (h : History) : Prop :=
  ∀ p, NoQuote p → h.countP (isFileMsg p) ≤ 1

theorem sq_data : sq.data = [Char.ofNat 39] := rfl

theorem isFileMsg_imp_contains {p : String} {m : Message}
    (h : isFileMsg p m = true) : strContains (fileMarker p) m.content = true := by
  have h1 : (fileMarker p ++ ":").data <+: m.content.data :=
    List.isPrefixOf_iff_prefix.mp h
  have h2 : (fileMarker p).data <+: (fileMarker p ++ ":").data := by
    rw [String.data_append]
    exact List.prefix_append _ _
  exact containsSub_of_isPrefixOf (List.isPrefixOf_iff_prefix.mpr (h2.trans h1))

/-- Lists that agree up to their first occurrence of a distinguished
absent character are equal when one extended copy prefixes the other. -/
theorem eq_of_prefix_upto_quote {Q : Char} :
    ∀ (a b : List Char), Q ∉ a → Q ∉ b → ∀ u v,
      (a ++ Q :: u) <+: (b ++ Q :: v) → a = b := by
  intro a
  induction a with
  | nil =>
    intro b ha hb u v hpre
    cases b with
    | nil => rfl
    | cons c b2 =>
      exfalso
      simp only [List.nil_append, List.cons_append] at hpre
      have hc := (List.cons_prefix_cons.mp hpre).1
      apply hb
      rw [← hc]
      exact List.mem_cons_self Q b2
  | cons c a2 ih =>
    intro b ha hb u v hpre
    cases b with
    | nil =>
      exfalso
      simp only [List.cons_append, List.nil_append] at hpre
      have hc := (List.cons_prefix_cons.mp hpre).1
      apply ha
      rw [hc]
      exact List.mem_cons_self Q a2
    | cons d b2 =>
      simp only [List.cons_append] at hpre
      obtain ⟨hcd, hrest⟩ := List.cons_prefix_cons.mp hpre
      rw [hcd, ih b2 (fun hm => ha (List.mem_cons_of_mem c hm))
        (fun hm => hb (List.mem_cons_of_mem d hm)) u v hrest]

/-- A file-content message is framed only for its own (quote-free)
path. -/
theorem isFileMsg_fileMarkerMsg {p q body : String}
    (hp : NoQuote p) (hq : NoQuote q)
    (h : isFileMsg p (fileMarkerMsg q body) = true) : p = q := by
  have hpre := List.isPrefixOf_iff_prefix.mp h
  have e1 : (fileMarker p ++ ":").data =
      "Content of file ".data ++ (Char.ofNat 39 :: (p.data ++ Char.ofNat 39 :: (":").data)) := by
    simp [fileMarker, sq_data, String.data_append, List.append_assoc]
  have e2 : (fileMarkerMsg q body).content.data =
      "Content of file ".data ++
        (Char.ofNat 39 :: (q.data ++ Char.ofNat 39 :: ((":\n\n").data ++ body.data))) := by
    simp [fileMarkerMsg, fileMarker, sq_data, String.data_append, List.append_assoc]
  rw [e1, e2] at hpre
  have h3 := (List.prefix_append_right_inj ("Content of file ".data)).mp hpre
  have h4 := (List.cons_prefix_cons.mp h3).2
  have h5 := eq_of_prefix_upto_quote p.data q.data hp hq _ _ h4
  cases p with
  | mk dp =>
    cases q with
    | mk dq => exact congrArg String.mk h5

/-- Appending a file-content message under the code's substring guard
preserves the dedup bound. -/
theorem DedupInv.guarded_append {h : History} {q body : String}
    (hq : NoQuote q)
    (hguard : h.any (fun m => strContains (fileMarker q) m.content) = false)
    (hinv : DedupInv h) : DedupInv (h ++ [fileMarkerMsg q body]) := by
  intro p hp
  rw [List.countP_append]
  by_cases hpq : p = q
  · subst hpq
    have hzero : h.countP (isFileMsg p) = 0 := by
      rw [List.countP_eq_zero]
      intro m hm hmsg
      have := List.any_eq_false.mp hguard m hm
      exact this (isFileMsg_imp_contains hmsg)
    rw [hzero]
    simp only [List.countP_cons, List.countP_nil]
    split <;> omega
  · have hnew : isFileMsg p (fileMarkerMsg q body) = false := by
      cases hmsg : isFileMsg p (fileMarkerMsg q body) with
      | false => rfl
      | true => exact absurd (isFileMsg_fileMarkerMsg hp hq hmsg) hpq
    have : List.countP (isFileMsg p) [fileMarkerMsg q body] = 0 := by
      simp [List.countP_cons, hnew]
    rw [this]
    simpa using hinv p hp

/-- Quote-free canonicalization outputs. -/
def EnvOk (env : Env) : Prop := ∀ p r, env.canon p = some r → NoQuote r

theorem DedupInv.ensure (env : Env) (fs : FS) {h : History} (p : String)
    (henv : EnvOk env) (hinv : DedupInv h) :
    DedupInv (ensure_file_in_context env fs h p).2 := by
  cases hc : env.canon p with
  | none => simpa [ensure_file_in_context, hc] using hinv
  | some np =>
    cases hf : fs np with
    | none => simpa [ensure_file_in_context, hc, hf] using hinv
    | some content =>
      by_cases hany : h.any (fun m => strContains (fileMarker np) m.content) = true
      · simpa [ensure_file_in_context, hc, hf, hany] using hinv
      · have hguard : h.any (fun m => strContains (fileMarker np) m.content) = false := by
          simpa using hany
        simpa [ensure_file_in_context, hc, hf, hguard] using
          hinv.guarded_append (henv p np hc) hguard

theorem DedupInv.preload (fs : FS) :
    ∀ (ps : List String) {h : History}, (∀ p ∈ ps, NoQuote p) → DedupInv h →
      DedupInv (preloadFiles fs ps h).2 := by
  intro ps
  induction ps with
  | nil => exact fun _ hinv => hinv
  | cons p rest ih =>
    intro h hq hinv
    simp only [preloadFiles]
    cases hf : fs p with
    | none => exact ih (fun x hx => hq x (List.mem_cons_of_mem p hx)) hinv
    | some content =>
      simp only
      by_cases hany : h.any (fun m => strContains (fileMarker p) m.content) = true
      · simpa [hany] using
          ih (fun x hx => hq x (List.mem_cons_of_mem p hx)) hinv
      · have hguard : h.any (fun m => strContains (fileMarker p) m.content) = false := by
          simpa using hany
        simpa [hguard] using
          ih (fun x hx => hq x (List.mem_cons_of_mem p hx))
            (hinv.guarded_append (hq p (List.mem_cons_self p rest)) hguard)

/-- The history operations C3 quantifies over that the code guards with
its dedup check: plain message appends, `ensure_file_in_context`, and
the pre-call preload loop. -/
inductive HOp where
  | plain (r : Role) (s : String)
  | ensure (p : String)
  | preload (ps : List String)

def runOp (env : Env) (fs : FS) (h : History) : HOp → History
  | HOp.plain r s => h ++ [⟨r, s⟩]
  | HOp.ensure p => (ensure_file_in_context env fs h p).2
  | HOp.preload ps => (preloadFiles fs ps h).2

def runOps (env : Env) (fs : FS) : List HOp → History → History
  | [], h => h
  | op :: ops, h => runOps env fs ops (runOp env fs h op)

/-- Side conditions on an operation: plain appends do not themselves
carry the framing, and preloaded paths are quote-free. -/
def OpOk : HOp → Prop
  | HOp.plain r s => ∀ p, NoQuote p → isFileMsg p ⟨r, s⟩ = false
  | HOp.ensure _ => True
  | HOp.preload ps => ∀ p ∈ ps, NoQuote p

theorem DedupInv.runOps (env : Env) (fs : FS) (henv : EnvOk env) :
    ∀ (ops : List HOp) {h : History}, (∀ op ∈ ops, OpOk op) → DedupInv h →
      DedupInv (QE.runOps env fs ops h) := by
  intro ops
  induction ops with
  | nil => exact fun _ hinv => hinv
  | cons op rest ih =>
    intro h hok hinv
    have hrest : ∀ o ∈ rest, OpOk o := fun o ho => hok o (List.mem_cons_of_mem op ho)
    refine ih hrest ?_
    cases op with
    | plain r s =>
      intro p hp
      simp only [runOp, List.countP_append]
      have : isFileMsg p ⟨r, s⟩ = false := hok _ (List.mem_cons_self _ _) p hp
      have hz : List.countP (isFileMsg p) [⟨r, s⟩] = 0 := by
        simp [List.countP_cons, this]
      rw [hz]
      simpa using hinv p hp
    | ensure q => exact DedupInv.ensure env fs q henv hinv
    | preload ps => exact DedupInv.preload fs ps (hok _ (List.mem_cons_self _ _)) hinv

theorem isFileMsg_false_of_short (p : String) (m : Message)
    (hlen : m.content.data.length < 19) : isFileMsg p m = false := by
  cases hmsg : isFileMsg p m with
  | false => rfl
  | true =>
    exfalso
    have hpre := List.isPrefixOf_iff_prefix.mp hmsg
    have hle := hpre.length_le
    have h16 : ("Content of file " : String).data.length = 16 := by decide
    have hlen2 : 19 ≤ (fileMarker p ++ ":").data.length := by
      simp [fileMarker, sq_data, String.data_append, h16]
    omega

/-- Counterexample to claim C3 as stated: preloading `/f.txt` into the
context via `ensure_file_in_context` and then successfully patching it
leaves the history with two messages carrying the content-of-file
framing for the same canonical path (the code's `create_file` appends
the fresh content message without removing or checking for the old
one). -/
theorem claim_C3_counterexample :
    (apply_diff_edit (Env.mk fun p => some p) "/proj" "/f.txt" "alpha" "gamma"
        ⟨fun p => if p = "/f.txt" then some "alpha beta" else none,
          (ensure_file_in_context (Env.mk fun p => some p)
            (fun p => if p = "/f.txt" then some "alpha beta" else none)
            [] "/f.txt").2⟩).1.history.countP (isFileMsg "/f.txt") = 2 := by
  decide

/-- Claim C3 (amended) — after any sequence of plain message appends
(whose contents do not themselves carry the content-of-file framing),
`ensure_file_in_context` calls, and pre-call preloads of quote-free
paths, the history never contains two messages carrying the
content-of-file framing for the same quote-free canonical path; the
original claim fails because file creations and successful patch
applications append a fresh content message unconditionally. -/
theorem claim_C3_amended_dedup_preserved_by_preloads
    (env : Env) (fs : FS) (henv : EnvOk env) (ops : List HOp) (h : History)
    (hok : ∀ op ∈ ops, OpOk op) (hinv : DedupInv h) :
    DedupInv (runOps env fs ops h) :=
  DedupInv.runOps env fs henv ops hok hinv

/-- Witness for the amended C3: an ensure, a preload and a plain user
message on an initially empty history keep the dedup bound. -/
theorem claim_C3_amended_dedup_preserved_by_preloads_witness :
    EnvOk (Env.mk fun p => if Char.ofNat 39 ∈ p.data then none else some p) ∧
    (∀ op ∈ [HOp.ensure "/f.txt", HOp.preload ["/g.txt"], HOp.plain Role.user "hi"],
      OpOk op) ∧
    DedupInv [] ∧
    DedupInv (runOps (Env.mk fun p => if Char.ofNat 39 ∈ p.data then none else some p)
      (fun p => if p = "/f.txt" then some "A" else if p = "/g.txt" then some "B" else none)
      [HOp.ensure "/f.txt", HOp.preload ["/g.txt"], HOp.plain Role.user "hi"] []) := by
  have henv : EnvOk (Env.mk fun p => if Char.ofNat 39 ∈ p.data then none else some p) := by
    intro p r hc
    by_cases hmem : Char.ofNat 39 ∈ p.data
    · simp [hmem] at hc
    · simp [hmem] at hc
      rw [← hc]
      exact hmem
  have hok : ∀ op ∈ [HOp.ensure "/f.txt", HOp.preload ["/g.txt"],
      HOp.plain Role.user "hi"], OpOk op := by
    intro op hop
    simp only [List.mem_cons, List.not_mem_nil, or_false] at hop
    rcases hop with rfl | rfl | rfl
    · trivial
    · intro p hp
      simp only [List.mem_cons, List.not_mem_nil, or_false] at hp
      rw [hp]
      unfold NoQuote
      decide
    · intro p hp
      exact isFileMsg_false_of_short p ⟨Role.user, "hi"⟩ (by decide)
  have hinv : DedupInv [] := by
    intro p hp
    simp [List.countP_nil]
  exact ⟨henv, hok, hinv,
    claim_C3_amended_dedup_preserved_by_preloads _ _ henv _ [] hok hinv⟩

namespace Resolver

/-! ## Lemmas about path canonicalization (claim C8) -/

theorem canon_nil (e : FsEnv) (hwf : Wf e) : Canon e [] :=
  ⟨fun c hc => absurd hc (List.not_mem_nil c),
    fun pre hpre => by rw [List.prefix_nil.mp hpre]; exact hwf.root⟩

theorem splitSlashAux_no_slash :
    ∀ (t acc : List Char), '/' ∉ acc → ∀ c ∈ splitSlashAux t acc, '/' ∉ c := by
  intro t
  induction t with
  | nil =>
    intro acc hacc c hc
    simp only [splitSlashAux, List.mem_singleton] at hc
    rw [hc]
    intro hcon
    exact hacc (List.mem_reverse.mp hcon)
  | cons ch t2 ih =>
    intro acc hacc c hc
    simp only [splitSlashAux] at hc
    by_cases hch : ch = '/'
    · rw [if_pos hch] at hc
      rcases List.mem_cons.mp hc with he | hm
      · rw [he]
        intro hcon
        exact hacc (List.mem_reverse.mp hcon)
      · exact ih [] (List.not_mem_nil '/') c hm
    · rw [if_neg hch] at hc
      refine ih (ch :: acc) ?_ c hc
      intro hmem
      rcases List.mem_cons.mp hmem with he | hm
      · exact hch he.symm
      · exact hacc hm

theorem pathComps_token (s : String) : ∀ c ∈ pathComps s, Token c := by
  intro c hc
  unfold pathComps at hc
  have hmem := List.mem_of_mem_filter hc
  have hpred := List.of_mem_filter hc
  constructor
  · intro he
    rw [he] at hpred
    simp at hpred
  · exact splitSlashAux_no_slash s.data [] (List.not_mem_nil '/') c hmem

theorem resolveGo_canon (e : FsEnv) (hwf : Wf e)
    (rec : List Comp → List Comp → Option (List Comp))
    (hrec : ∀ st comps out, Canon e st → (∀ c ∈ comps, Token c) →
      rec st comps = some out → Canon e out) :
    ∀ (comps st out : List Comp), Canon e st → (∀ c ∈ comps, Token c) →
      resolveGo e rec st comps = some out → Canon e out := by
  intro comps
  induction comps with
  | nil =>
    intro st out hst _ heq
    simp only [resolveGo, Option.some_inj] at heq
    rwa [← heq]
  | cons c rest ih =>
    intro st out hst htok heq
    have hctok : Token c := htok c (List.mem_cons_self c rest)
    have hrtok : ∀ x ∈ rest, Token x := fun x hx => htok x (List.mem_cons_of_mem c hx)
    simp only [resolveGo] at heq
    by_cases hdot : c = dotC
    · rw [if_pos hdot] at heq
      exact ih st out hst hrtok heq
    · rw [if_neg hdot] at heq
      by_cases hdd : c = dotdotC
      · rw [if_pos hdd] at heq
        have hdl : Canon e st.dropLast :=
          ⟨fun x hx => hst.1 x (List.mem_of_mem_dropLast hx),
            fun pre hpre => hst.2 pre (hpre.trans (List.dropLast_prefix st))⟩
        exact ih _ out hdl hrtok heq
      · rw [if_neg hdd] at heq
        cases hsym : e.symlink (st ++ [c]) with
        | none =>
          rw [hsym] at heq
          have hplain : Plain c := ⟨hctok, hdot, hdd⟩
          have hcat : Canon e (st ++ [c]) := by
            constructor
            · intro x hx
              rcases List.mem_append.mp hx with hx | hx
              · exact hst.1 x hx
              · rw [List.mem_singleton.mp hx]
                exact hplain
            · intro pre hpre
              rcases List.prefix_concat_iff.mp hpre with he | hp
              · rw [he]
                exact hsym
              · exact hst.2 pre hp
          exact ih _ out hcat hrtok heq
        | some t =>
          rw [hsym] at heq
          simp only at heq
          cases hrc : rec (if t.1 then [] else st) t.2 with
          | none =>
            rw [hrc] at heq
            simp at heq
          | some st2 =>
            rw [hrc] at heq
            simp only at heq
            have hstart : Canon e (if t.1 then [] else st) := by
              by_cases h1 : t.1 = true
              · rw [if_pos h1]
                exact canon_nil e hwf
              · rw [if_neg h1]
                exact hst
            have hst2 : Canon e st2 := hrec _ _ _ hstart (hwf.targetTok _ t hsym) hrc
            exact ih st2 out hst2 hrtok heq

theorem resolveComps_canon (e : FsEnv) (hwf : Wf e) :
    ∀ (fuel : Nat) (st comps out : List Comp), Canon e st →
      (∀ c ∈ comps, Token c) → resolveComps e fuel st comps = some out →
      Canon e out := by
  intro fuel
  induction fuel with
  | zero =>
    intro st comps out hst htok heq
    refine resolveGo_canon e hwf _ ?_ comps st out hst htok heq
    intro _ _ _ _ _ h
    exact absurd h (by simp)
  | succ f ih =>
    intro st comps out hst htok heq
    exact resolveGo_canon e hwf _ (fun a b c hc ht he => ih a b c hc ht he)
      comps st out hst htok heq

theorem resolveGo_fixed (e : FsEnv)
    (rec : List Comp → List Comp → Option (List Comp)) :
    ∀ (comps st : List Comp), Canon e (st ++ comps) →
      resolveGo e rec st comps = some (st ++ comps) := by
  intro comps
  induction comps with
  | nil =>
    intro st _
    simp [resolveGo]
  | cons c rest ih =>
    intro st h
    have hplain : Plain c := h.1 c (by simp)
    have hsym : e.symlink (st ++ [c]) = none := h.2 (st ++ [c]) ⟨rest, by simp⟩
    have hassoc : (st ++ [c]) ++ rest = st ++ c :: rest := by simp
    simp only [resolveGo, if_neg hplain.2.1, if_neg hplain.2.2, hsym]
    rw [ih (st ++ [c]) (by rw [hassoc]; exact h), hassoc]

theorem resolveComps_fixed (e : FsEnv) (fuel : Nat) (comps st : List Comp)
    (h : Canon e (st ++ comps)) :
    resolveComps e fuel st comps = some (st ++ comps) := by
  cases fuel with
  | zero => exact resolveGo_fixed e _ comps st h
  | succ f => exact resolveGo_fixed e _ comps st h

theorem splitSlashAux_append_noslash :
    ∀ (c : List Char), '/' ∉ c → ∀ (t acc : List Char),
      splitSlashAux (c ++ t) acc = splitSlashAux t (c.reverse ++ acc) := by
  intro c
  induction c with
  | nil =>
    intro _ t acc
    simp
  | cons ch c2 ih =>
    intro hns t acc
    have hch : ¬ ch = '/' := fun he => hns (by rw [he]; exact List.mem_cons_self _ _)
    simp only [List.cons_append, splitSlashAux, if_neg hch]
    rw [show c2.append t = c2 ++ t from rfl]
    rw [ih (fun hm => hns (List.mem_cons_of_mem ch hm)) t (ch :: acc)]
    congr 1
    simp

theorem splitSlashAux_renderAbsAux :
    ∀ (cs : List Comp), (∀ c ∈ cs, Token c) → ∀ (acc : List Char),
      splitSlashAux (renderAbsAux cs) acc = acc.reverse :: cs := by
  intro cs
  induction cs with
  | nil =>
    intro _ acc
    simp [renderAbsAux, splitSlashAux]
  | cons c rest ih =>
    intro htok acc
    have hc : Token c := htok c (by simp)
    show splitSlashAux ('/' :: (c ++ renderAbsAux rest)) acc = acc.reverse :: c :: rest
    simp only [splitSlashAux, if_pos rfl]
    rw [splitSlashAux_append_noslash c hc.2 (renderAbsAux rest) []]
    rw [ih (fun x hx => htok x (List.mem_cons_of_mem c hx)) (c.reverse ++ [])]
    simp

theorem pathComps_renderAbs (cs : List Comp) (h : ∀ c ∈ cs, Plain c) :
    pathComps (String.mk (renderAbs cs)) = cs := by
  cases cs with
  | nil => rfl
  | cons c rest =>
    have htok : ∀ x ∈ c :: rest, Token x := fun x hx => (h x hx).1
    have hne : (c :: rest : List Comp) ≠ [] := by simp
    unfold pathComps renderAbs
    rw [if_neg hne]
    show (splitSlashAux (renderAbsAux (c :: rest)) []).filter (fun x => !x.isEmpty) = c :: rest
    rw [splitSlashAux_renderAbsAux (c :: rest) htok [], List.reverse_nil, List.filter_cons,
      if_neg (by decide)]
    rw [List.filter_eq_self.mpr]
    intro x hx
    have := (htok x hx).1
    simp [List.isEmpty_iff, this]

theorem isAbsPath_renderAbs (cs : List Comp) :
    isAbsPath (String.mk (renderAbs cs)) = true := by
  cases cs with
  | nil => rfl
  | cons c rest => rfl

theorem normalize_path_idem (e : FsEnv) (hwf : Wf e) (fuel : Nat) (s out : String)
    (h : normalize_path e fuel s = some out) :
    normalize_path e fuel out = some out := by
  unfold normalize_path resolveStr at h ⊢
  cases hr : resolveComps e fuel (if isAbsPath s then [] else e.cwd) (pathComps s) with
  | none =>
    rw [hr] at h
    exact Option.noConfusion h
  | some q =>
    rw [hr] at h
    injection h with h
    have hstart : Canon e (if isAbsPath s then [] else e.cwd) := by
      by_cases ha : isAbsPath s = true
      · rw [if_pos ha]
        exact canon_nil e hwf
      · rw [if_neg ha]
        exact hwf.cwdCanon
    have hq : Canon e q :=
      resolveComps_canon e hwf fuel _ _ q hstart (pathComps_token s) hr
    rw [← h]
    rw [isAbsPath_renderAbs q, if_pos rfl, pathComps_renderAbs q hq.1]
    rw [resolveComps_fixed e fuel q [] (by simpa using hq)]
    simp

/-- Claim C8 — canonicalization (the model of `normalize_path`, i.e.
`str(Path(p).resolve())`) is idempotent over any well-formed filesystem
state, and two path strings resolving to the same on-disk location (the
physical reading of "denoting the same file": `..`, `.` and symlink
indirections removed) normalize to the identical canonical string. -/
theorem claim_C8_canonicalization_idempotent :
    (∀ (e : FsEnv) (fuel : Nat) (s out : String), Wf e →
      normalize_path e fuel s = some out → normalize_path e fuel out = some out) ∧
    (∀ (e : FsEnv) (fuel : Nat) (p1 p2 : String) (r : List Comp),
      resolveStr e fuel p1 = some r → resolveStr e fuel p2 = some r →
      normalize_path e fuel p1 = normalize_path e fuel p2) := by
  constructor
  · intro e fuel s out hwf h
    exact normalize_path_idem e hwf fuel s out h
  · intro e fuel p1 p2 r h1 h2
    unfold normalize_path
    rw [h1, h2]

/-- Witness for C8: a state with one symlink `/s -> /a/b`; the path
`/s/./x` normalizes to `/a/b/x`, normalizing again is stable, and the
syntactically different `/s/x` and `/a//b/x` normalize identically. -/
theorem claim_C8_canonicalization_idempotent_witness :
    Wf ⟨[], fun p => if p = [['s']] then some (true, [['a'], ['b']]) else none⟩ ∧
    normalize_path ⟨[], fun p => if p = [['s']] then some (true, [['a'], ['b']]) else none⟩
      40 "/s/./x" = some "/a/b/x" ∧
    normalize_path ⟨[], fun p => if p = [['s']] then some (true, [['a'], ['b']]) else none⟩
      40 "/a/b/x" = some "/a/b/x" ∧
    (resolveStr ⟨[], fun p => if p = [['s']] then some (true, [['a'], ['b']]) else none⟩
        40 "/s/x" = some [['a'], ['b'], ['x']] ∧
      resolveStr ⟨[], fun p => if p = [['s']] then some (true, [['a'], ['b']]) else none⟩
        40 "/a//b/x" = some [['a'], ['b'], ['x']] ∧
      normalize_path ⟨[], fun p => if p = [['s']] then some (true, [['a'], ['b']]) else none⟩
        40 "/s/x" =
        normalize_path ⟨[], fun p => if p = [['s']] then some (true, [['a'], ['b']]) else none⟩
          40 "/a//b/x") := by
  have hwf : Wf ⟨[], fun p => if p = [['s']] then some (true, [['a'], ['b']]) else none⟩ := by
    refine ⟨by decide, ⟨fun c hc => absurd hc (List.not_mem_nil c), ?_⟩, ?_⟩
    · intro pre hpre
      rw [List.prefix_nil.mp hpre]
      decide
    · intro p t h
      by_cases hp : p = [['s']]
      · have h2 : some ((true : Bool), [['a'], ['b']]) = some t := by
          rw [← h]
          simp [hp]
        have ht : t = (true, [['a'], ['b']]) := by
          injection h2 with h3
          exact h3.symm
        rw [ht]
        intro c hc
        simp only [List.mem_cons, List.not_mem_nil, or_false] at hc
        rcases hc with rfl | rfl
        · exact ⟨by decide, by decide⟩
        · exact ⟨by decide, by decide⟩
      · have h2 : (none : Option (Bool × List Comp)) = some t := by
          rw [← h]
          simp [hp]
        exact Option.noConfusion h2
  have hnorm : normalize_path
      ⟨[], fun p => if p = [['s']] then some (true, [['a'], ['b']]) else none⟩
      40 "/s/./x" = some "/a/b/x" := by decide
  refine ⟨hwf, hnorm, ?_, by decide, by decide,
    (claim_C8_canonicalization_idempotent).2 _ 40 "/s/x" "/a//b/x"
      [['a'], ['b'], ['x']] (by decide) (by decide)⟩
  have := (claim_C8_canonicalization_idempotent).1 _ 40 "/s/./x" "/a/b/x" hwf hnorm
  exact this

end Resolver

end QE
